import Mathlib

/-!
Verification of the transcript chunking / fetch / store utilities
(`api/utils/transcript.py`) against their specification.

Shallow embedding conventions:
* Python strings are `List Char`; `str.strip()` is `strip` below (ASCII
  whitespace, mirroring the characters Python strips from ASCII text).
* Python `int` parameters (`max_chunk_size`, `overlap_size`, `chunk_size`)
  are `ℤ`; list lengths are cast into `ℤ` at each comparison.
* Segment timestamps (`start`, `duration`) are real-valued floats in the
  source; they are modeled with exact integer arithmetic (`ℤ`), which keeps
  every operation the code performs on them (addition, summation, ordering)
  and makes concrete runs kernel-computable.
* The external transcript retrieval capability and the vector store are
  modeled as function parameters (`fetch`, `vector_store`); a raised
  exception from the retrieval capability is an `Except.error` value
  carrying the exception message.
-/

namespace EMTT

/-- ASCII whitespace, the characters `str.strip()` removes from ASCII text
(space, tab, newline, carriage return, vertical tab, form feed). -/
def isWS (c : Char) : Bool :=
  c == ' ' || c == '\t' || c == '\n' || c == '\r' || c == '\x0b' || c == '\x0c'

/-- Left part of `str.strip()`: drop leading whitespace. -/
def lstrip (l : List Char) : List Char := l.dropWhile isWS

/-- Right part of `str.strip()`: drop trailing whitespace. -/
def rstrip (l : List Char) : List Char := (l.reverse.dropWhile isWS).reverse

/-- Python `str.strip()`: drop leading and trailing whitespace. -/
def strip (l : List Char) : List Char := rstrip (lstrip l)

/-- One transcript segment, a `{text, start, duration}` dict from the
transcript API. -/
structure Segment where
  text : List Char
  start : ℤ
  duration : ℤ
deriving DecidableEq, Repr

/-- One output chunk of `chunk_segments`: a `{text, start, duration, end}`
dict (`end` is a Lean keyword, hence the field name `endTime`). -/
structure Chunk where
  text : List Char
  start : ℤ
  duration : ℤ
  endTime : ℤ
deriving DecidableEq, Repr

/-- The loop state of `chunk_segments`: the accumulated `chunks` list, the
running buffer `current_chunk_text`, the pending chunk's
`current_chunk_start`, and the `current_chunk_segments` folded so far. -/
structure ChunkState where
  chunks : List Chunk
  current_chunk_text : List Char
  current_chunk_start : ℤ
  current_chunk_segments : List Segment
deriving DecidableEq, Repr

/-- The backward overlap walk of `chunk_segments` (transcript.py lines
52-59): iterate over `reversed(current_chunk_segments)`; while the
accumulated overlap text plus the candidate's raw text stays under
`overlap_size`, prepend `prev_seg["text"] + " "` to the overlap text and
`prev_seg` to the overlap segments, else break. -/
def overlapLoop (overlap_size : ℤ) :
    List Segment → List Char → List Segment → List Char × List Segment
  | [], overlap_text, overlap_segments => (overlap_text, overlap_segments)
  | prev_seg :: rest, overlap_text, overlap_segments =>
    if (overlap_text.length : ℤ) + (prev_seg.text.length : ℤ) < overlap_size then
      overlapLoop overlap_size rest (prev_seg.text ++ ' ' :: overlap_text)
        (prev_seg :: overlap_segments)
    else (overlap_text, overlap_segments)

/-- The overlap seed computed when a chunk closes: the walk of
`overlapLoop` started on `reversed(current_chunk_segments)` with empty
accumulators. -/
def seedOverlap (overlap_size : ℤ) (ccs : List Segment) : List Char × List Segment :=
  overlapLoop overlap_size ccs.reverse [] []

/-- The text the overlap walk accumulates for a kept segment list: each
segment's raw text followed by one space (`prev_seg["text"] + " " + acc`). -/
def overlapJoin (l : List Segment) : List Char :=
  l.foldr (fun s acc => s.text ++ ' ' :: acc) []

/-- Closing the current chunk (transcript.py lines 44-49 and 71-76): record
the trimmed buffer, the chunk start, the sum of the folded segments'
durations, and the last folded segment's `start + duration`.  The source
indexes `current_chunk_segments[-1]`, which presupposes a non-empty folded
list (true at every reachable close); the `none` arm is unreachable there
and returns a junk value. -/
def closeChunk (st : ChunkState) : Chunk :=
  { text := strip st.current_chunk_text
    start := st.current_chunk_start
    duration := (st.current_chunk_segments.map Segment.duration).sum
    endTime :=
      match st.current_chunk_segments.getLast? with
      | some l => l.start + l.duration
      | none => 0 }

/-- One iteration of the `for segment in segments` loop of
`chunk_segments` (transcript.py lines 38-67).  If appending the stripped
segment text would push the buffer past `max_chunk_size` and the buffer is
non-empty, the current chunk is closed and the new buffer is seeded with
the overlap walk; the new chunk start is the first kept overlap segment's
start, or the current segment's start if none qualified.  In both cases
the segment is then folded into the current chunk. -/
def chunkStep (max_chunk_size overlap_size : ℤ) (st : ChunkState)
    (segment : Segment) : ChunkState :=
  if (st.current_chunk_text.length : ℤ) + ((strip segment.text).length : ℤ) + 1 >
        max_chunk_size ∧ st.current_chunk_text ≠ [] then
    { chunks := st.chunks ++ [closeChunk st]
      current_chunk_text :=
        (seedOverlap overlap_size st.current_chunk_segments).1 ++
          ' ' :: strip segment.text
      current_chunk_start :=
        match (seedOverlap overlap_size st.current_chunk_segments).2 with
        | [] => segment.start
        | o :: _ => o.start
      current_chunk_segments :=
        (seedOverlap overlap_size st.current_chunk_segments).2 ++ [segment] }
  else
    { chunks := st.chunks
      current_chunk_text := st.current_chunk_text ++ ' ' :: strip segment.text
      current_chunk_start := st.current_chunk_start
      current_chunk_segments := st.current_chunk_segments ++ [segment] }

/-- Source function `chunk_segments(segments, max_chunk_size, overlap_size)`
(transcript.py lines 18-78): empty input returns `[]`; otherwise the state
starts with an empty buffer, `current_chunk_start = segments[0]["start"]`
and no folded segments, every segment is processed by `chunkStep`, and a
final chunk is closed if the remaining buffer has non-empty trimmed text. -/
def chunk_segments (segments : List Segment) (max_chunk_size overlap_size : ℤ) :
    List Chunk :=
  match segments with
  | [] => []
  | s :: rest =>
    let final :=
      (s :: rest).foldl (chunkStep max_chunk_size overlap_size) ⟨[], [], s.start, []⟩
    if strip final.current_chunk_text ≠ [] then
      final.chunks ++ [closeChunk final]
    else final.chunks

/-- One identifier character of the video-id pattern: `[a-zA-Z0-9_-]`. -/
def idChar (c : Char) : Bool :=
  ('a' ≤ c && c ≤ 'z') || ('A' ≤ c && c ≤ 'Z') || ('0' ≤ c && c ≤ '9') ||
    c == '_' || c == '-'

/-- One alternative of the video-id regex at the current position: if the
literal alternative `alt` is a prefix here and at least 11 identifier
characters follow it, the first 11 of them are the captured group. -/
def tryAlt (alt l : List Char) : Option (List Char) :=
  if alt.isPrefixOf l && decide (11 ≤ (l.drop alt.length).length) &&
      ((l.drop alt.length).take 11).all idChar then
    some ((l.drop alt.length).take 11)
  else none

/-- The regex `(?:v=|\/v\/|youtu\.be\/|\/embed\/)([a-zA-Z0-9_-]{11})` tried
at one position: the non-capturing alternatives in source order. -/
def matchAt (l : List Char) : Option (List Char) :=
  (tryAlt "v=".toList l).orElse fun _ =>
    (tryAlt "/v/".toList l).orElse fun _ =>
      (tryAlt "youtu.be/".toList l).orElse fun _ =>
        tryAlt "/embed/".toList l

/-- Python `re.search` for that pattern: try each position left to right, return
the first successful match's captured group. -/
def searchFrom : List Char → Option (List Char)
  | [] => none
  | c :: rest =>
    match matchAt (c :: rest) with
    | some v => some v
    | none => searchFrom rest

/-- Source function `extract_video_id(url)` (transcript.py lines 6-15): search the single
pattern, return the capture group of the first match, else `None`. -/
def extract_video_id (url : List Char) : Option (List Char) := searchFrom url

/-- Python `str.lower()` on the ASCII error messages involved. -/
def lowerStr (l : List Char) : List Char := l.map Char.toLower

/-- Python substring test `needle in hay`. -/
def containsSub (hay needle : List Char) : Bool :=
  if needle.isPrefixOf hay then true
  else
    match hay with
    | [] => false
    | _ :: t => containsSub t needle

/-- Python `" ".join(texts)`. -/
def joinSpace : List (List Char) → List Char
  | [] => []
  | [x] => x
  | x :: xs => x ++ ' ' :: joinSpace xs

/-- The result dict of `get_youtube_transcript`. -/
structure TranscriptResult where
  success : Bool
  transcript : Option (List Char)
  segments : Option (List Segment)
  error : Option (List Char)
deriving DecidableEq, Repr

def msgInvalidUrl : List Char := "Invalid YouTube URL. Could not extract video ID.".toList

def msgDisabled : List Char := "Transcripts are disabled for this video.".toList

def msgNotFound : List Char :=
  "No transcript found for this video. It may not have captions available.".toList

def msgUnavailable : List Char :=
  "The video is unavailable. It may have been removed or is private.".toList

def msgUnexpected : List Char := "An unexpected error occurred: ".toList

/-- Source function `get_youtube_transcript(video_url)` (transcript.py lines 82-151).  The
external retrieval capability is the parameter `fetch`; an exception it
raises is an `Except.error` carrying the exception message `str(e)`.  On
an error, the message is lowercased and classified by substring. -/
def get_youtube_transcript (video_url : List Char)
    (fetch : List Char → Except (List Char) (List Segment)) : TranscriptResult :=
  match extract_video_id video_url with
  | none => ⟨false, none, none, some msgInvalidUrl⟩
  | some video_id =>
    match fetch video_id with
    | Except.ok segments =>
      ⟨true, some (joinSpace (segments.map Segment.text)), some segments, none⟩
    | Except.error e =>
      let error_msg := lowerStr e
      if containsSub error_msg "disabled".toList then
        ⟨false, none, none, some msgDisabled⟩
      else if containsSub error_msg "no transcript".toList ||
          containsSub error_msg "not found".toList then
        ⟨false, none, none, some msgNotFound⟩
      else if containsSub error_msg "unavailable".toList then
        ⟨false, none, none, some msgUnavailable⟩
      else
        ⟨false, none, none, some (msgUnexpected ++ e)⟩

def msgStoreFailed : List Char := "Failed to store in vector database".toList

/-- The return value of `store_transcript_for_rag`: the fetch-failure path
returns the fetch result dict unchanged, the store path returns the
`{success, video_id, segments_stored, original_segments, error}` dict. -/
inductive StoreRagResult where
  | fetchFailed (r : TranscriptResult)
  | storeAttempted (success : Bool) (video_id : List Char)
      (segments_stored : ℕ) (original_segments : ℕ) (error : Option (List Char))
deriving DecidableEq, Repr

/-- Source function `store_transcript_for_rag(video_url, vector_store, chunk_size)`
(transcript.py lines 154-189).  The vector store is the parameter
`vector_store` (its `store_transcript` boolean); the transcript fetch is
`fetch`.  On fetch success the code re-extracts the id, chunks the raw
segments with `max_chunk_size = chunk_size` and the default
`overlap_size = 50`, and reports counts depending on the store's boolean.
The source reads `result["segments"]` only on the success path, where it
is never `None`; the embedding uses `Option.getD []` there. -/
def store_transcript_for_rag (video_url : List Char)
    (fetch : List Char → Except (List Char) (List Segment))
    (vector_store : List Char → List Chunk → List Char → Bool)
    (chunk_size : ℤ) : StoreRagResult :=
  let result := get_youtube_transcript video_url fetch
  if result.success = false then
    StoreRagResult.fetchFailed result
  else
    let video_id := (extract_video_id video_url).getD []
    let chunked_segments := chunk_segments (result.segments.getD []) chunk_size 50
    let success := vector_store video_id chunked_segments video_url
    StoreRagResult.storeAttempted success video_id
      (if success then chunked_segments.length else 0)
      (result.segments.getD []).length
      (if success then none else some msgStoreFailed)

/-- Concatenation of the chunks' texts, used to state coverage of the
input segments' texts by the output of `chunk_segments`. -/
def concatTexts (cs : List Chunk) : List Char :=
  cs.foldr (fun c acc => c.text ++ acc) []

/-- The spec-side text of a chunking state: all closed chunk texts followed
by the trimmed running buffer. -/
def stateText (st : ChunkState) : List Char :=
  concatTexts st.chunks ++ strip st.current_chunk_text

/-- The largest stripped segment text length of the input, as an integer. -/
def maxStripLen (segs : List Segment) : ℤ :=
  segs.foldr (fun s m => max ((strip s.text).length : ℤ) m) 0

/-- What `chunk_segments` records when it closes a chunk: there is a
non-empty contiguous run `fs` of input segments (the segments folded into
the chunk, overlap carry-over included) such that the chunk's duration is
the sum of their durations, its `end` is the last one's
`start + duration`, its `start` is the first one's `start`, and its text
is trimmed. -/
def GoodChunk (segs : List Segment) (c : Chunk) : Prop :=
  ∃ fs : List Segment, fs ≠ [] ∧ fs <:+: segs ∧
    c.duration = (fs.map Segment.duration).sum ∧
    (∃ l, fs.getLast? = some l ∧ c.endTime = l.start + l.duration) ∧
    (∃ o, fs.head? = some o ∧ c.start = o.start) ∧
    strip c.text = c.text

/-- Fold invariant of the chunking loop relating the state to the input
`segs` and the still-unprocessed `rest`: the folded segments followed by
the unprocessed ones are a suffix of the input (so the folded segments are
a contiguous run ending at the last processed segment); the folded list
and the buffer are empty together; the pending chunk start is the first
folded segment's start (or, before anything is folded, the next segment's
start); and every closed chunk satisfies `GoodChunk`. -/
def StateInv (segs rest : List Segment) (st : ChunkState) : Prop :=
  (st.current_chunk_segments ++ rest <:+ segs) ∧
  (st.current_chunk_segments = [] ↔ st.current_chunk_text = []) ∧
  (∀ o, st.current_chunk_segments.head? = some o → st.current_chunk_start = o.start) ∧
  (st.current_chunk_segments = [] →
    ∀ t, rest.head? = some t → st.current_chunk_start = t.start) ∧
  (∀ c ∈ st.chunks, GoodChunk segs c)

/-! ### Whitespace-stripping lemmas -/

theorem dropWhile_eq_cons_head (p : Char → Bool) :
    ∀ (l : List Char) {c : Char} {t : List Char}, l.dropWhile p = c :: t → p c = false := by
  intro l
  induction l with
  | nil => intro c t h; simp [List.dropWhile] at h
  | cons a r ih =>
    intro c t h
    rw [List.dropWhile_cons] at h
    split at h
    · exact ih h
    · next hp =>
      cases h
      simpa using hp

theorem lstrip_suffix (l : List Char) : lstrip l <:+ l :=
  List.dropWhile_suffix isWS

theorem rstrip_prefix_self (l : List Char) : rstrip l <+: l := by
  have h : l.reverse.dropWhile isWS <:+ l.reverse := List.dropWhile_suffix isWS
  have h2 := List.reverse_prefix.mpr h
  simpa [rstrip] using h2

theorem strip_prefix_lstrip (l : List Char) : strip l <+: lstrip l :=
  rstrip_prefix_self (lstrip l)

theorem strip_infix_self (l : List Char) : strip l <:+: l := by
  obtain ⟨t, ht⟩ := strip_prefix_lstrip l
  obtain ⟨u, hu⟩ := lstrip_suffix l
  have h : u ++ (strip l ++ t) = l := by rw [ht, hu]
  rw [← List.append_assoc] at h
  exact ⟨u, t, h⟩

theorem strip_length_le (l : List Char) : (strip l).length ≤ l.length :=
  (strip_infix_self l).sublist.length_le

theorem strip_nil : strip [] = [] := rfl

theorem ne_nil_of_strip_ne_nil {l : List Char} (h : strip l ≠ []) : l ≠ [] := by
  intro hl
  exact h (hl ▸ strip_nil)

theorem lstrip_cons_of_ws {c : Char} (hc : isWS c = true) (l : List Char) :
    lstrip (c :: l) = lstrip l := by
  simp [lstrip, List.dropWhile_cons, hc]

theorem strip_cons_ws {c : Char} (hc : isWS c = true) (l : List Char) :
    strip (c :: l) = strip l := by
  simp [strip, lstrip_cons_of_ws hc]

theorem lstrip_eq_self_of_head {l : List Char}
    (h : ∀ c t, l = c :: t → isWS c = false) : lstrip l = l := by
  cases l with
  | nil => rfl
  | cons c t => simp [lstrip, List.dropWhile_cons, h c t rfl]

theorem rstrip_eq_self_of_getLast {l : List Char}
    (h : ∀ c t, l.reverse = c :: t → isWS c = false) : rstrip l = l := by
  have h2 := lstrip_eq_self_of_head h
  rw [lstrip] at h2
  rw [rstrip, h2, List.reverse_reverse]

theorem strip_head_not_ws {l : List Char} {c : Char} {t : List Char}
    (h : strip l = c :: t) : isWS c = false := by
  obtain ⟨u, hu⟩ := strip_prefix_lstrip l
  rw [h, lstrip] at hu
  have h2 : List.dropWhile isWS l = c :: (t ++ u) := by
    rw [← hu]
    simp
  exact dropWhile_eq_cons_head isWS l h2

theorem strip_getLast_not_ws {l : List Char} {c : Char} {t : List Char}
    (h : (strip l).reverse = c :: t) : isWS c = false := by
  have hrev : (strip l).reverse = (lstrip l).reverse.dropWhile isWS := by
    simp [strip, rstrip]
  rw [h] at hrev
  exact dropWhile_eq_cons_head isWS (lstrip l).reverse hrev.symm

theorem strip_idem (l : List Char) : strip (strip l) = strip l := by
  cases h : strip l with
  | nil => rfl
  | cons c t =>
    have hhead : ∀ c' t', (c :: t : List Char) = c' :: t' → isWS c' = false := by
      intro c' t' he
      cases he
      exact strip_head_not_ws h
    have hlast : ∀ c' t', (c :: t : List Char).reverse = c' :: t' → isWS c' = false := by
      intro c' t' he
      exact strip_getLast_not_ws (h ▸ he)
    rw [strip, lstrip_eq_self_of_head hhead, rstrip_eq_self_of_getLast hlast]

theorem rstrip_append (x b : List Char) : rstrip x <+: rstrip (x ++ b) := by
  simp only [rstrip, List.reverse_append, List.dropWhile_append]
  split
  · exact List.prefix_rfl
  · simp only [List.reverse_append, List.reverse_reverse]
    exact (rstrip_prefix_self x).trans (List.prefix_append x _)

theorem strip_append_left (a b : List Char) : strip a <+: strip (a ++ b) := by
  simp only [strip, lstrip, List.dropWhile_append]
  split
  · next h =>
    have h2 : a.dropWhile isWS = [] := by simpa using h
    rw [h2]
    exact List.nil_prefix
  · exact rstrip_append (a.dropWhile isWS) b

theorem rstrip_append_suffix (y b : List Char) : rstrip b <:+ rstrip (y ++ b) := by
  simp only [rstrip, List.reverse_append, List.dropWhile_append]
  split
  · next h =>
    have hb : b.reverse.dropWhile isWS = [] := by simpa using h
    rw [hb]
    simp
  · simp only [List.reverse_append, List.reverse_reverse]
    exact List.suffix_append y _

theorem strip_append_right (a b : List Char) : strip b <:+ strip (a ++ b) := by
  simp only [strip, lstrip, List.dropWhile_append]
  split
  · exact List.suffix_rfl
  · have hb : b = b.takeWhile isWS ++ b.dropWhile isWS :=
      (List.takeWhile_append_dropWhile isWS b).symm
    calc rstrip (b.dropWhile isWS)
        <:+ rstrip ((a.dropWhile isWS ++ b.takeWhile isWS) ++ b.dropWhile isWS) :=
          rstrip_append_suffix _ _
      _ = rstrip (a.dropWhile isWS ++ b) := by rw [List.append_assoc, ← hb]

theorem prefix_append_left {x y : List Char} (c : List Char) (h : x <+: y) :
    c ++ x <+: c ++ y := by
  obtain ⟨t, rfl⟩ := h
  exact ⟨t, by rw [List.append_assoc]⟩

/-! ### Overlap-walk lemmas -/

theorem overlapJoin_nil : overlapJoin [] = [] := rfl

theorem overlapJoin_cons (s : Segment) (l : List Segment) :
    overlapJoin (s :: l) = s.text ++ ' ' :: overlapJoin l := rfl

theorem overlapJoin_append (l₁ l₂ : List Segment) :
    overlapJoin (l₁ ++ l₂) = overlapJoin l₁ ++ overlapJoin l₂ := by
  induction l₁ with
  | nil => simp [overlapJoin_nil]
  | cons s t ih => simp [overlapJoin_cons, ih]

theorem overlapJoin_ne_nil {l : List Segment} (h : l ≠ []) : overlapJoin l ≠ [] := by
  cases l with
  | nil => exact absurd rfl h
  | cons s t =>
    rw [overlapJoin_cons]
    simp

/-- Full characterization of the overlap walk with arbitrary accumulators:
some prefix of the reversed input (`t.reverse`, so `t` is in chunk order)
is consumed; the result prepends `overlapJoin t` to the text accumulator
and `t` to the segment accumulator; if the walk stopped early, the next
candidate would have reached `overlap_size`; and every consumed segment
passed its admission test. -/
theorem overlapLoop_go (ov : ℤ) :
    ∀ (l : List Segment) (ot : List Char) (os : List Segment),
      ∃ t : List Segment,
        overlapLoop ov l ot os = (overlapJoin t ++ ot, t ++ os) ∧
        t.reverse <+: l ∧
        (∀ p, (l.drop t.length).head? = some p →
          ov ≤ ((overlapJoin t ++ ot).length : ℤ) + (p.text.length : ℤ)) ∧
        (∀ a post, a :: post <:+ t →
          ((overlapJoin post ++ ot).length : ℤ) + (a.text.length : ℤ) < ov) := by
  intro l
  induction l with
  | nil =>
    intro ot os
    refine ⟨[], by simp [overlapLoop, overlapJoin_nil], by simp, ?_, ?_⟩
    · intro p hp
      simp at hp
    · intro a post hsf
      exact absurd (List.suffix_nil.mp hsf) (by simp)
  | cons p rest ih =>
    intro ot os
    rw [overlapLoop]
    split
    · next hlt =>
      obtain ⟨t', heq, hpre, hbd, hstep⟩ := ih (p.text ++ ' ' :: ot) (p :: os)
      have hjoin : overlapJoin (t' ++ [p]) ++ ot = overlapJoin t' ++ (p.text ++ ' ' :: ot) := by
        rw [overlapJoin_append]
        simp [overlapJoin_cons, overlapJoin_nil]
      refine ⟨t' ++ [p], ?_, ?_, ?_, ?_⟩
      · rw [heq, hjoin]
        simp
      · rw [List.reverse_append]
        have h5 : p :: t'.reverse <+: p :: rest := List.cons_prefix_cons.mpr ⟨rfl, hpre⟩
        simpa using h5
      · intro q hq
        have hlen2 : (t' ++ [p]).length = t'.length + 1 := by simp
        rw [hlen2, List.drop_succ_cons] at hq
        have := hbd q hq
        rw [hjoin]
        exact this
      · intro a post hsf
        obtain ⟨u, hu⟩ := hsf
        rcases List.eq_nil_or_concat post with rfl | ⟨dl, q, rfl⟩
        · have h2 := List.append_inj' hu rfl
          obtain ⟨-, h3⟩ := h2
          injection h3 with h4 h5
          subst h4
          simpa [overlapJoin_nil] using hlt
        · simp only [List.concat_eq_append] at hu ⊢
          rw [show a :: (dl ++ [q]) = (a :: dl) ++ [q] by simp, ← List.append_assoc] at hu
          obtain ⟨h1, h2⟩ := List.append_inj' hu rfl
          injection h2 with h4 h5
          rw [h4]
          have := hstep a dl ⟨u, h1⟩
          have hlen3 : (overlapJoin (dl ++ [p]) ++ ot).length =
              (overlapJoin dl ++ (p.text ++ ' ' :: ot)).length := by
            rw [overlapJoin_append]
            simp [overlapJoin_cons, overlapJoin_nil]
          rw [hlen3]
          exact this
    · next hge =>
      refine ⟨[], by simp [overlapLoop, overlapJoin_nil], by simp, ?_, ?_⟩
      · intro q hq
        simp only [List.length_nil, List.drop_zero, List.head?_cons, Option.some.injEq] at hq
        subst hq
        push_neg at hge
        simpa [overlapJoin_nil] using hge
      · intro a post hsf
        exact absurd (List.suffix_nil.mp hsf) (by simp)

theorem overlapLoop_len (ov : ℤ) :
    ∀ (l : List Segment) (ot : List Char) (os : List Segment),
      (ot.length : ℤ) ≤ ov → (((overlapLoop ov l ot os).1.length : ℤ)) ≤ ov := by
  intro l
  induction l with
  | nil => intro ot os h; exact h
  | cons p rest ih =>
    intro ot os h
    rw [overlapLoop]
    split
    · next hlt =>
      refine ih _ _ ?_
      simp only [List.length_append, List.length_cons]
      push_cast
      omega
    · exact h

/-- The two components of the seed walk reproduce each other: the seeded
buffer is exactly the joined texts of the kept segments. -/
theorem seedOverlap_join (ov : ℤ) (ccs : List Segment) :
    (seedOverlap ov ccs).1 = overlapJoin (seedOverlap ov ccs).2 := by
  obtain ⟨t, heq, -, -, -⟩ := overlapLoop_go ov ccs.reverse [] []
  rw [seedOverlap, heq]
  simp

/-- The kept overlap segments are a suffix of the closing chunk's folded
segments. -/
theorem seedOverlap_suffix (ov : ℤ) (ccs : List Segment) :
    (seedOverlap ov ccs).2 <:+ ccs := by
  obtain ⟨t, heq, hpre, -, -⟩ := overlapLoop_go ov ccs.reverse [] []
  rw [seedOverlap, heq]
  simp only [List.append_nil]
  have h2 : t.reverse.reverse <:+ ccs.reverse.reverse := List.reverse_suffix.mpr hpre
  simpa using h2

/-- The seeded overlap text never reaches `overlap_size` characters. -/
theorem seedOverlap_len (ov : ℤ) (ccs : List Segment) (hov : 0 ≤ ov) :
    (((seedOverlap ov ccs).1.length : ℤ)) ≤ ov :=
  overlapLoop_len ov ccs.reverse [] [] (by simpa using hov)

/-- If the walk stopped before consuming the whole folded list, the next
(excluded) segment would have made the overlap text reach `overlap_size`. -/
theorem seedOverlap_boundary (ov : ℤ) (ccs : List Segment) (pre : List Segment)
    (a : Segment) (h : ccs = pre ++ a :: (seedOverlap ov ccs).2) :
    ov ≤ (((seedOverlap ov ccs).1.length : ℤ)) + (a.text.length : ℤ) := by
  obtain ⟨t, heq, -, hbd, -⟩ := overlapLoop_go ov ccs.reverse [] []
  have hsnd : (seedOverlap ov ccs).2 = t := by rw [seedOverlap, heq]; simp
  have hfst : (seedOverlap ov ccs).1 = overlapJoin t := by rw [seedOverlap, heq]; simp
  rw [hsnd] at h
  have hrev : ccs.reverse = t.reverse ++ a :: pre.reverse := by
    rw [h]
    simp
  have hdrop : (ccs.reverse.drop t.length).head? = some a := by
    rw [hrev, ← List.length_reverse t, List.drop_left]
    rfl
  have := hbd a hdrop
  rw [hfst]
  simpa using this

/-- Every segment kept by the walk passed its admission test: at the moment
it was prepended, the already-accumulated overlap text plus its own text
was still under `overlap_size`. -/
theorem seedOverlap_step (ov : ℤ) (ccs : List Segment) (a : Segment)
    (post : List Segment) (h : a :: post <:+ (seedOverlap ov ccs).2) :
    ((overlapJoin post).length : ℤ) + (a.text.length : ℤ) < ov := by
  obtain ⟨t, heq, -, -, hstep⟩ := overlapLoop_go ov ccs.reverse [] []
  have hsnd : (seedOverlap ov ccs).2 = t := by rw [seedOverlap, heq]; simp
  rw [hsnd] at h
  have := hstep a post h
  simpa using this

/-- The seeded text is empty exactly when no overlap segment qualified. -/
theorem seedOverlap_nil_iff (ov : ℤ) (ccs : List Segment) :
    (seedOverlap ov ccs).1 = [] ↔ (seedOverlap ov ccs).2 = [] := by
  rw [seedOverlap_join ov ccs]
  constructor
  · intro h
    by_contra hne
    exact overlapJoin_ne_nil hne h
  · intro h
    rw [h, overlapJoin_nil]

/-! ### Totality / chunk-count bound (C10) -/

theorem chunkStep_text_ne_nil (maxC ov : ℤ) (st : ChunkState) (s : Segment) :
    (chunkStep maxC ov st s).current_chunk_text ≠ [] := by
  rw [chunkStep]
  split <;> simp

theorem chunkStep_chunks_le (maxC ov : ℤ) (st : ChunkState) (s : Segment) :
    (chunkStep maxC ov st s).chunks.length + 1 ≤
      st.chunks.length + (if st.current_chunk_text = [] then 0 else 1) + 1 := by
  rw [chunkStep]
  split
  · next h =>
    rw [if_neg h.2]
    simp
  · split <;> simp

theorem foldl_chunkStep_measure (maxC ov : ℤ) :
    ∀ (l : List Segment) (st : ChunkState),
      (l.foldl (chunkStep maxC ov) st).chunks.length +
          (if (l.foldl (chunkStep maxC ov) st).current_chunk_text = [] then 0 else 1) ≤
        st.chunks.length + (if st.current_chunk_text = [] then 0 else 1) + l.length := by
  intro l
  induction l with
  | nil => intro st; simp
  | cons s rest ih =>
    intro st
    rw [List.foldl_cons]
    have h1 := ih (chunkStep maxC ov st s)
    have h2 := chunkStep_chunks_le maxC ov st s
    have h3 := chunkStep_text_ne_nil maxC ov st s
    rw [if_neg h3] at h1
    simp only [List.length_cons]
    omega

/-- C10: `chunk_segments` is total — in this embedding it is a plain
structurally recursive function accepted without any fuel or termination
argument, defined for every input including `overlap_size ≥
max_chunk_size`; it makes one pass over the input, emitting at most one
chunk per input segment, and the overlap walk inside each close is bounded
by the current chunk's folded segments (it keeps a suffix of them). -/
theorem claim_C10_total (segments : List Segment) (max_chunk_size overlap_size : ℤ) :
    (chunk_segments segments max_chunk_size overlap_size).length ≤ segments.length ∧
      ∀ ccs : List Segment,
        (seedOverlap overlap_size ccs).2.length ≤ ccs.length := by
  constructor
  · cases segments with
    | nil => simp [chunk_segments]
    | cons s rest =>
      rw [chunk_segments]
      have hm := foldl_chunkStep_measure max_chunk_size overlap_size (s :: rest)
        ⟨[], [], s.start, []⟩
      rw [if_pos (show (⟨[], [], s.start, []⟩ : ChunkState).current_chunk_text = [] from rfl)]
        at hm
      simp only [List.length_nil, List.length_cons, Nat.zero_add] at hm ⊢
      split
      · next h =>
        have hne : ((s :: rest).foldl (chunkStep max_chunk_size overlap_size)
            ⟨[], [], s.start, []⟩).current_chunk_text ≠ [] := ne_nil_of_strip_ne_nil h
        rw [if_neg hne] at hm
        simp only [List.length_append, List.length_cons, List.length_nil] at hm ⊢
        omega
      · split at hm <;> omega
  · intro ccs
    exact (seedOverlap_suffix overlap_size ccs).sublist.length_le

/-! ### Concrete examples (C5, C6) and counterexamples (C1, C3) -/

/-- C6: chunking the empty segment list yields the empty list, for every
`max_chunk_size` and `overlap_size`. -/
theorem claim_C6_empty (max_chunk_size overlap_size : ℤ) :
    chunk_segments [] max_chunk_size overlap_size = [] := rfl

/-- C5: on the three-segment example with `max_chunk_size = 8` and
`overlap_size = 0`, the output is exactly three chunks (so at least two):
the first closes as `{text := "hello", start := 0}` when `"world"` would
overflow 8 characters, and the last is `{start := 2, duration := 1,
end := 3}`. -/
theorem claim_C5_example :
    chunk_segments
        [⟨"hello".toList, 0, 1⟩, ⟨"world".toList, 1, 1⟩, ⟨"foo".toList, 2, 1⟩] 8 0 =
      [⟨"hello".toList, 0, 1, 1⟩, ⟨"world".toList, 1, 1, 2⟩, ⟨"foo".toList, 2, 1, 3⟩] ∧
    2 ≤ (chunk_segments
        [⟨"hello".toList, 0, 1⟩, ⟨"world".toList, 1, 1⟩, ⟨"foo".toList, 2, 1⟩] 8 0).length := by
  constructor
  · decide
  · decide

/-- C1 is false as stated: with `max_chunk_size = 60` and
`overlap_size = 50` (so `0 < max`, `0 ≤ overlap < max`), two segments of
stripped lengths 40 and 45 — each well under 60 — produce a chunk of 87
characters, because the overlap seed of the first chunk is glued onto the
second segment before any size check. -/
theorem claim_C1_cex :
    (∀ s ∈ [Segment.mk (List.replicate 40 'a') 0 1, Segment.mk (List.replicate 45 'b') 1 1],
        ((strip s.text).length : ℤ) ≤ 60) ∧
      ∃ c ∈ chunk_segments
          [Segment.mk (List.replicate 40 'a') 0 1, Segment.mk (List.replicate 45 'b') 1 1] 60 50,
        (60 : ℤ) < (c.text.length : ℤ) := by
  decide

/-- C3 is false as stated: a non-empty input consisting of one
whitespace-only segment produces the empty chunk list (the final buffer
strips to empty, so no chunk is ever closed). -/
theorem claim_C3_cex :
    ([Segment.mk [' '] 0 1] : List Segment) ≠ [] ∧
      chunk_segments [Segment.mk [' '] 0 1] 500 50 = [] := by
  decide

/-! ### Chunk-size bound (C1 amended) -/

theorem maxStripLen_le {segments : List Segment} {s : Segment} (h : s ∈ segments) :
    ((strip s.text).length : ℤ) ≤ maxStripLen segments := by
  induction segments with
  | nil => simp at h
  | cons a t ih =>
    rcases List.mem_cons.mp h with rfl | hmem
    · exact le_max_left _ _
    · exact (ih hmem).trans (le_max_right _ _)

theorem maxStripLen_nonneg (segments : List Segment) : 0 ≤ maxStripLen segments := by
  induction segments with
  | nil => exact le_refl 0
  | cons a t ih => exact ih.trans (le_max_right _ _)

theorem c1_fold (maxC ov M : ℤ) (hov : 0 ≤ ov) :
    ∀ (l : List Segment) (st : ChunkState),
      (∀ s ∈ l, ((strip s.text).length : ℤ) ≤ M) →
      (st.current_chunk_text.length : ℤ) ≤ max maxC (ov + 1 + M) →
      (∀ c ∈ st.chunks, (c.text.length : ℤ) ≤ max maxC (ov + 1 + M)) →
      ((((l.foldl (chunkStep maxC ov) st).current_chunk_text.length : ℤ)) ≤
          max maxC (ov + 1 + M)) ∧
        ∀ c ∈ (l.foldl (chunkStep maxC ov) st).chunks,
          (c.text.length : ℤ) ≤ max maxC (ov + 1 + M) := by
  intro l
  induction l with
  | nil => intro st _ hbuf hchunks; exact ⟨hbuf, hchunks⟩
  | cons s rest ih =>
    intro st hm hbuf hchunks
    rw [List.foldl_cons]
    have hB1 : maxC ≤ max maxC (ov + 1 + M) := le_max_left _ _
    have hB2 : ov + 1 + M ≤ max maxC (ov + 1 + M) := le_max_right _ _
    have hsM : ((strip s.text).length : ℤ) ≤ M := hm s (List.mem_cons_self s rest)
    refine ih (chunkStep maxC ov st s) (fun x hx => hm x (List.mem_cons_of_mem s hx)) ?_ ?_
    · rw [chunkStep]
      split
      · next h =>
        have hseed := seedOverlap_len ov st.current_chunk_segments hov
        simp only [List.length_append, List.length_cons]
        push_cast
        omega
      · next h =>
        simp only [List.length_append, List.length_cons]
        by_cases hnil : st.current_chunk_text = []
        · rw [hnil]
          simp only [List.length_nil]
          push_cast
          omega
        · have hcond : ¬ ((st.current_chunk_text.length : ℤ) +
              ((strip s.text).length : ℤ) + 1 > maxC) := fun hc => h ⟨hc, hnil⟩
          push_neg at hcond
          push_cast
          omega
    · rw [chunkStep]
      split
      · next h =>
        intro c hc
        rcases List.mem_append.mp hc with hold | hnew
        · exact hchunks c hold
        · have hc2 : c = closeChunk st := by simpa using hnew
          subst hc2
          have h3 : ((strip st.current_chunk_text).length : ℤ) ≤
              (st.current_chunk_text.length : ℤ) := by
            exact_mod_cast strip_length_le st.current_chunk_text
          exact (h3.trans hbuf)
      · exact hchunks

/-- C1 amended: for `overlap_size ≥ 0`, every chunk's text length is at
most `max max_chunk_size (overlap_size + 1 + M)`, where `M` is the largest
stripped segment text length of the input.  (The original claim — no chunk
exceeds `max_chunk_size` unless a single segment alone does — is refuted
by `claim_C1_cex`: a chunk can exceed `max_chunk_size` exactly when the
overlap seed plus one segment's text does, even though every individual
segment fits.) -/
theorem claim_C1_bound (segments : List Segment) (max_chunk_size overlap_size : ℤ)
    (hov : 0 ≤ overlap_size) :
    ∀ c ∈ chunk_segments segments max_chunk_size overlap_size,
      (c.text.length : ℤ) ≤
        max max_chunk_size (overlap_size + 1 + maxStripLen segments) := by
  cases segments with
  | nil => simp [chunk_segments]
  | cons s rest =>
    rw [chunk_segments]
    have hinit1 : (((⟨[], [], s.start, []⟩ : ChunkState).current_chunk_text.length : ℤ)) ≤
        max max_chunk_size (overlap_size + 1 + maxStripLen (s :: rest)) := by
      have := maxStripLen_nonneg (s :: rest)
      have h2 : overlap_size + 1 + maxStripLen (s :: rest) ≤
          max max_chunk_size (overlap_size + 1 + maxStripLen (s :: rest)) := le_max_right _ _
      simp only [List.length_nil]
      push_cast
      omega
    obtain ⟨hbuf, hchunks⟩ := c1_fold max_chunk_size overlap_size
      (maxStripLen (s :: rest)) hov (s :: rest) ⟨[], [], s.start, []⟩
      (fun x hx => maxStripLen_le hx) hinit1 (by simp)
    split
    · intro c hc
      rcases List.mem_append.mp hc with hold | hnew
      · exact hchunks c hold
      · have hc2 : c = closeChunk ((s :: rest).foldl
            (chunkStep max_chunk_size overlap_size) ⟨[], [], s.start, []⟩) := by
          simpa using hnew
        subst hc2
        have h3 := strip_length_le ((s :: rest).foldl
            (chunkStep max_chunk_size overlap_size)
            ⟨[], [], s.start, []⟩).current_chunk_text
        have h4 : ((strip ((s :: rest).foldl (chunkStep max_chunk_size overlap_size)
            ⟨[], [], s.start, []⟩).current_chunk_text).length : ℤ) ≤
            (((s :: rest).foldl (chunkStep max_chunk_size overlap_size)
            ⟨[], [], s.start, []⟩).current_chunk_text.length : ℤ) := by exact_mod_cast h3
        exact h4.trans hbuf
    · exact hchunks

/-- Witness for `claim_C1_bound` at a concrete input. -/
theorem claim_C1_bound_witness :
    (0 : ℤ) ≤ 0 ∧
      ((Chunk.mk "hi".toList 0 1 1).text.length : ℤ) ≤
        max 500 (0 + 1 + maxStripLen [Segment.mk "hi".toList 0 1]) :=
  ⟨by decide,
    claim_C1_bound [Segment.mk "hi".toList 0 1] 500 0 (by decide)
      (Chunk.mk "hi".toList 0 1 1) (by decide)⟩

/-! ### Coverage of segment texts (C3 amended) -/

theorem concatTexts_nil : concatTexts [] = [] := rfl

theorem concatTexts_cons (c : Chunk) (l : List Chunk) :
    concatTexts (c :: l) = c.text ++ concatTexts l := rfl

theorem concatTexts_append (a b : List Chunk) :
    concatTexts (a ++ b) = concatTexts a ++ concatTexts b := by
  induction a with
  | nil => rfl
  | cons c t ih =>
    rw [List.cons_append, concatTexts_cons, concatTexts_cons, ih, List.append_assoc]

theorem concatTexts_singleton (c : Chunk) : concatTexts [c] = c.text := by
  rw [concatTexts_cons, concatTexts_nil, List.append_nil]

theorem strip_cons_space_strip (x : List Char) :
    strip (' ' :: strip x) = strip x := by
  rw [@strip_cons_ws ' ' (by decide) (strip x), strip_idem]

theorem stateText_mk (A : List Chunk) (B : List Char) (C : ℤ) (D : List Segment) :
    stateText ⟨A, B, C, D⟩ = concatTexts A ++ strip B := rfl

theorem closeChunk_text (st : ChunkState) :
    (closeChunk st).text = strip st.current_chunk_text := rfl

theorem stateText_prefix_step (maxC ov : ℤ) (st : ChunkState) (s : Segment) :
    stateText st <+: stateText (chunkStep maxC ov st s) := by
  rw [chunkStep]
  split
  · show concatTexts st.chunks ++ strip st.current_chunk_text <+:
      concatTexts (st.chunks ++ [closeChunk st]) ++
        strip ((seedOverlap ov st.current_chunk_segments).1 ++ ' ' :: strip s.text)
    rw [concatTexts_append, concatTexts_singleton, closeChunk_text, List.append_assoc]
    exact prefix_append_left _ (List.prefix_append _ _)
  · show concatTexts st.chunks ++ strip st.current_chunk_text <+:
      concatTexts st.chunks ++ strip (st.current_chunk_text ++ ' ' :: strip s.text)
    exact prefix_append_left _ (strip_append_left _ _)

theorem stateText_seg_step (maxC ov : ℤ) (st : ChunkState) (s : Segment) :
    strip s.text <:+: stateText (chunkStep maxC ov st s) := by
  have key : ∀ (C X : List Char),
      strip s.text <:+: C ++ strip (X ++ ' ' :: strip s.text) := by
    intro C X
    have h1 : strip (' ' :: strip s.text) <:+ strip (X ++ ' ' :: strip s.text) :=
      strip_append_right X (' ' :: strip s.text)
    rw [strip_cons_space_strip] at h1
    obtain ⟨u, hu⟩ := h1
    exact ⟨C ++ u, [], by rw [List.append_nil, List.append_assoc, hu]⟩
  rw [chunkStep]
  split
  · exact key (concatTexts (st.chunks ++ [closeChunk st]))
      (seedOverlap ov st.current_chunk_segments).1
  · exact key (concatTexts st.chunks) st.current_chunk_text

theorem stateText_prefix_fold (maxC ov : ℤ) :
    ∀ (l : List Segment) (st : ChunkState),
      stateText st <+: stateText (l.foldl (chunkStep maxC ov) st) := by
  intro l
  induction l with
  | nil => intro st; exact List.prefix_rfl
  | cons s rest ih =>
    intro st
    rw [List.foldl_cons]
    exact (stateText_prefix_step maxC ov st s).trans (ih (chunkStep maxC ov st s))

theorem c3_fold (maxC ov : ℤ) :
    ∀ (l : List Segment) (st : ChunkState) (s : Segment), s ∈ l →
      strip s.text <:+: stateText (l.foldl (chunkStep maxC ov) st) := by
  intro l
  induction l with
  | nil => intro st s hs; simp at hs
  | cons a rest ih =>
    intro st s hs
    rw [List.foldl_cons]
    rcases List.mem_cons.mp hs with heq | hmem
    · rw [heq]
      exact (stateText_seg_step maxC ov st a).trans
        (stateText_prefix_fold maxC ov rest (chunkStep maxC ov st a)).isInfix
    · exact ih (chunkStep maxC ov st a) s hmem

theorem concatTexts_chunk_segments (s : Segment) (rest : List Segment) (maxC ov : ℤ) :
    concatTexts (chunk_segments (s :: rest) maxC ov) =
      stateText ((s :: rest).foldl (chunkStep maxC ov) ⟨[], [], s.start, []⟩) := by
  rw [chunk_segments]
  split
  · rw [concatTexts_append, concatTexts_singleton, closeChunk, stateText]
  · next h =>
    push_neg at h
    rw [stateText, h, List.append_nil]

/-- C3 amended: every input segment's stripped text occurs contiguously in
the concatenation of the output chunks' texts, and the output is non-empty
as soon as some input segment has non-empty stripped text.  (The original
claim — non-empty output for every non-empty input, covering the raw
segment texts — is refuted by `claim_C3_cex`: a whitespace-only segment is
stripped away and can leave the output empty.) -/
theorem claim_C3_coverage (segments : List Segment) (max_chunk_size overlap_size : ℤ) :
    (∀ s ∈ segments,
        strip s.text <:+: concatTexts (chunk_segments segments max_chunk_size overlap_size)) ∧
      ((∃ s ∈ segments, strip s.text ≠ []) →
        chunk_segments segments max_chunk_size overlap_size ≠ []) := by
  cases segments with
  | nil =>
    constructor
    · intro s hs
      simp at hs
    · intro h
      simp at h
  | cons a rest =>
    have hout := concatTexts_chunk_segments a rest max_chunk_size overlap_size
    have hcov : ∀ s ∈ a :: rest,
        strip s.text <:+: concatTexts (chunk_segments (a :: rest) max_chunk_size overlap_size) := by
      intro s hs
      rw [hout]
      exact c3_fold max_chunk_size overlap_size (a :: rest) ⟨[], [], a.start, []⟩ s hs
    refine ⟨hcov, ?_⟩
    rintro ⟨s, hs, hne⟩ hnil
    have h1 := hcov s hs
    rw [hnil, concatTexts_nil] at h1
    have h2 : (strip s.text).length ≤ 0 := by simpa using h1.sublist.length_le
    exact hne (List.eq_nil_of_length_eq_zero (Nat.le_zero.mp h2))

/-- Witness for `claim_C3_coverage` at a concrete input. -/
theorem claim_C3_coverage_witness :
    (strip "hi".toList <:+: concatTexts (chunk_segments [Segment.mk "hi".toList 0 1] 500 50)) ∧
      chunk_segments [Segment.mk "hi".toList 0 1] 500 50 ≠ [] :=
  ⟨(claim_C3_coverage [Segment.mk "hi".toList 0 1] 500 50).1 (Segment.mk "hi".toList 0 1)
      (by decide),
    (claim_C3_coverage [Segment.mk "hi".toList 0 1] 500 50).2
      ⟨Segment.mk "hi".toList 0 1, by decide, by decide⟩⟩

/-! ### Chunk bookkeeping invariants (C4) -/

theorem closeChunk_endTime (st : ChunkState) {l : Segment}
    (h : st.current_chunk_segments.getLast? = some l) :
    (closeChunk st).endTime = l.start + l.duration := by
  show (match st.current_chunk_segments.getLast? with
    | some x => x.start + x.duration
    | none => 0) = l.start + l.duration
  rw [h]

theorem closeChunk_good (segs : List Segment) (st : ChunkState)
    (hne : st.current_chunk_segments ≠ [])
    (hinf : st.current_chunk_segments <:+: segs)
    (hstart : ∀ o, st.current_chunk_segments.head? = some o →
      st.current_chunk_start = o.start) :
    GoodChunk segs (closeChunk st) := by
  refine ⟨st.current_chunk_segments, hne, hinf, rfl, ?_, ?_, strip_idem _⟩
  · cases hlast : st.current_chunk_segments.getLast? with
    | none => exact absurd (List.getLast?_eq_none_iff.mp hlast) hne
    | some l => exact ⟨l, rfl, closeChunk_endTime st hlast⟩
  · cases hc : st.current_chunk_segments with
    | nil => exact absurd hc hne
    | cons o t =>
      refine ⟨o, rfl, ?_⟩
      show st.current_chunk_start = o.start
      exact hstart o (by rw [hc]; rfl)

theorem stateInv_step (segs : List Segment) (maxC ov : ℤ) (st : ChunkState)
    (s : Segment) (rest : List Segment) (h : StateInv segs (s :: rest) st) :
    StateInv segs rest (chunkStep maxC ov st s) := by
  obtain ⟨hcontig, hnil, hstart, hstartnil, hchunks⟩ := h
  rw [chunkStep]
  split
  · next hcond =>
    have hccs_ne : st.current_chunk_segments ≠ [] := fun he => hcond.2 (hnil.mp he)
    obtain ⟨pre, hpre⟩ := seedOverlap_suffix ov st.current_chunk_segments
    refine ⟨?_, ?_, ?_, ?_, ?_⟩
    · show (seedOverlap ov st.current_chunk_segments).2 ++ [s] ++ rest <:+ segs
      obtain ⟨u, hu⟩ := hcontig
      refine ⟨u ++ pre, ?_⟩
      have h2 : (u ++ pre) ++ ((seedOverlap ov st.current_chunk_segments).2 ++ [s] ++ rest) =
          u ++ ((pre ++ (seedOverlap ov st.current_chunk_segments).2) ++ (s :: rest)) := by
        simp [List.append_assoc]
      rw [h2, hpre, hu]
    · show (seedOverlap ov st.current_chunk_segments).2 ++ [s] = [] ↔
        (seedOverlap ov st.current_chunk_segments).1 ++ ' ' :: strip s.text = []
      constructor <;> (intro hx; simp at hx)
    · intro o ho
      show (match (seedOverlap ov st.current_chunk_segments).2 with
        | [] => s.start
        | o :: _ => o.start) = o.start
      cases hseed : (seedOverlap ov st.current_chunk_segments).2 with
      | nil =>
        rw [hseed] at ho
        simp only [List.nil_append, List.head?_cons, Option.some.injEq] at ho
        subst ho
        rfl
      | cons o' t =>
        rw [hseed] at ho
        simp only [List.cons_append, List.head?_cons, Option.some.injEq] at ho
        subst ho
        rfl
    · intro hx
      simp at hx
    · intro c hc
      rcases List.mem_append.mp hc with hold | hnew
      · exact hchunks c hold
      · have hc2 : c = closeChunk st := by simpa using hnew
        subst hc2
        refine closeChunk_good segs st hccs_ne ?_ hstart
        obtain ⟨u, hu⟩ := hcontig
        exact ⟨u, s :: rest, by rw [← hu]; simp⟩
  · next hcond =>
    refine ⟨?_, ?_, ?_, ?_, ?_⟩
    · show st.current_chunk_segments ++ [s] ++ rest <:+ segs
      have h1 : st.current_chunk_segments ++ [s] ++ rest =
          st.current_chunk_segments ++ s :: rest := by simp
      rw [h1]
      exact hcontig
    · show st.current_chunk_segments ++ [s] = [] ↔
        st.current_chunk_text ++ ' ' :: strip s.text = []
      constructor <;> (intro hx; simp at hx)
    · intro o ho
      show st.current_chunk_start = o.start
      cases hc : st.current_chunk_segments with
      | nil =>
        rw [hc] at ho
        simp only [List.nil_append, List.head?_cons, Option.some.injEq] at ho
        subst ho
        exact hstartnil hc s rfl
      | cons a t =>
        rw [hc] at ho
        simp only [List.cons_append, List.head?_cons, Option.some.injEq] at ho
        subst ho
        exact hstart a (by rw [hc]; rfl)
    · intro hx
      simp at hx
    · exact hchunks

theorem stateInv_fold (segs : List Segment) (maxC ov : ℤ) :
    ∀ (rest : List Segment) (st : ChunkState), StateInv segs rest st →
      StateInv segs [] (rest.foldl (chunkStep maxC ov) st) := by
  intro rest
  induction rest with
  | nil => intro st h; exact h
  | cons s r ih =>
    intro st h
    rw [List.foldl_cons]
    exact ih (chunkStep maxC ov st s) (stateInv_step segs maxC ov st s r h)

/-- C4: every emitted chunk is built from a non-empty contiguous run `fs`
of input segments (the ones folded into it, overlap carry-over included):
its `duration` is the sum of their durations, its `end` is the last one's
`start + duration`, its `start` is the first one's `start`, and its text
is trimmed; consequently, when the input has non-decreasing `start` values
and non-negative durations, every chunk satisfies `start ≤ end`. -/
theorem claim_C4_chunk_shape (segments : List Segment) (max_chunk_size overlap_size : ℤ) :
    (∀ c ∈ chunk_segments segments max_chunk_size overlap_size, GoodChunk segments c) ∧
      (List.Chain' (fun a b : Segment => a.start ≤ b.start) segments →
        (∀ s ∈ segments, 0 ≤ s.duration) →
        ∀ c ∈ chunk_segments segments max_chunk_size overlap_size,
          c.start ≤ c.endTime) := by
  have hmain : ∀ c ∈ chunk_segments segments max_chunk_size overlap_size,
      GoodChunk segments c := by
    cases segments with
    | nil => simp [chunk_segments]
    | cons a rest =>
      have hinit : StateInv (a :: rest) (a :: rest) ⟨[], [], a.start, []⟩ := by
        refine ⟨by simp, by simp, ?_, ?_, by simp⟩
        · intro o ho
          simp at ho
        · intro _ t ht
          simp only [List.head?_cons, Option.some.injEq] at ht
          subst ht
          rfl
      have hfin := stateInv_fold (a :: rest) max_chunk_size overlap_size (a :: rest)
        ⟨[], [], a.start, []⟩ hinit
      obtain ⟨hcontig, hnil, hstart, -, hchunks⟩ := hfin
      rw [chunk_segments]
      split
      · next hne =>
        intro c hc
        rcases List.mem_append.mp hc with hold | hnew
        · exact hchunks c hold
        · have hc2 : c = closeChunk ((a :: rest).foldl
              (chunkStep max_chunk_size overlap_size) ⟨[], [], a.start, []⟩) := by
            simpa using hnew
          subst hc2
          refine closeChunk_good (a :: rest) _ ?_ ?_ hstart
          · intro he
            exact (ne_nil_of_strip_ne_nil hne) (hnil.mp he)
          · obtain ⟨u, hu⟩ := hcontig
            rw [List.append_nil] at hu
            exact ⟨u, [], by rw [List.append_nil, hu]⟩
      · intro c hc
        exact hchunks c hc
  refine ⟨hmain, ?_⟩
  intro hchain hdur c hc
  obtain ⟨fs, hne, hinf, -, ⟨l, hlast, hend⟩, ⟨o, hhead, hcstart⟩, -⟩ := hmain c hc
  haveI : IsTrans Segment (fun a b : Segment => a.start ≤ b.start) :=
    ⟨fun _ _ _ h h' => le_trans h h'⟩
  have hchain2 : List.Chain' (fun a b : Segment => a.start ≤ b.start) fs :=
    hchain.infix hinf
  have hpw : List.Pairwise (fun a b : Segment => a.start ≤ b.start) fs :=
    List.chain'_iff_pairwise.mp hchain2
  have hlmem : l ∈ fs := List.mem_of_getLast?_eq_some hlast
  have hldur : 0 ≤ l.duration := hdur l (hinf.sublist.subset hlmem)
  cases fs with
  | nil => exact absurd rfl hne
  | cons o' t =>
    simp only [List.head?_cons, Option.some.injEq] at hhead
    subst hhead
    rcases List.mem_cons.mp hlmem with heq | hmem
    · rw [heq] at hldur
      rw [hcstart, hend, heq]
      linarith
    · have hle : o'.start ≤ l.start := (List.pairwise_cons.mp hpw).1 l hmem
      rw [hcstart, hend]
      linarith

/-- Witness for `claim_C4_chunk_shape` at a concrete input. -/
theorem claim_C4_chunk_shape_witness :
    GoodChunk [Segment.mk "hey".toList 0 1] (Chunk.mk "hey".toList 0 1 1) ∧
      (Chunk.mk "hey".toList 0 1 1).start ≤ (Chunk.mk "hey".toList 0 1 1).endTime :=
  ⟨(claim_C4_chunk_shape [Segment.mk "hey".toList 0 1] 500 50).1
      (Chunk.mk "hey".toList 0 1 1) (by decide),
    (claim_C4_chunk_shape [Segment.mk "hey".toList 0 1] 500 50).2
      (by simp) (by decide) (Chunk.mk "hey".toList 0 1 1) (by decide)⟩

/-! ### Overlap seeding of new chunks (C2) -/

/-- C2: whenever the closing condition fires — which is how every chunk
except the first begins — the new state closes the previous chunk and
seeds the next buffer with the overlap walk, and that seed consists of
whole trailing segments of the previous chunk's folded list (a suffix),
its text is exactly those segments' texts joined with spaces and totals at
most `overlap_size` characters, the walk stopped at (and excluded) the
first segment that would have made the accumulated overlap reach
`overlap_size`, and every kept segment was admitted while the accumulated
overlap was still under `overlap_size`. -/
theorem claim_C2_overlap_seed (max_chunk_size overlap_size : ℤ)
    (st : ChunkState) (seg : Segment)
    (hov : 0 ≤ overlap_size) (hlt : overlap_size < max_chunk_size)
    (hclose : (st.current_chunk_text.length : ℤ) + ((strip seg.text).length : ℤ) + 1 >
        max_chunk_size ∧ st.current_chunk_text ≠ []) :
    (chunkStep max_chunk_size overlap_size st seg =
      ⟨st.chunks ++ [closeChunk st],
        (seedOverlap overlap_size st.current_chunk_segments).1 ++ ' ' :: strip seg.text,
        (match (seedOverlap overlap_size st.current_chunk_segments).2 with
          | [] => seg.start
          | o :: _ => o.start),
        (seedOverlap overlap_size st.current_chunk_segments).2 ++ [seg]⟩) ∧
    (seedOverlap overlap_size st.current_chunk_segments).2 <:+
      st.current_chunk_segments ∧
    (seedOverlap overlap_size st.current_chunk_segments).1 =
      overlapJoin (seedOverlap overlap_size st.current_chunk_segments).2 ∧
    (((seedOverlap overlap_size st.current_chunk_segments).1.length : ℤ)) ≤
      overlap_size ∧
    (∀ pre a, st.current_chunk_segments =
        pre ++ a :: (seedOverlap overlap_size st.current_chunk_segments).2 →
      overlap_size ≤
        (((seedOverlap overlap_size st.current_chunk_segments).1.length : ℤ)) +
          (a.text.length : ℤ)) ∧
    (∀ a post, a :: post <:+ (seedOverlap overlap_size st.current_chunk_segments).2 →
      ((overlapJoin post).length : ℤ) + (a.text.length : ℤ) < overlap_size) := by
  refine ⟨?_, seedOverlap_suffix overlap_size st.current_chunk_segments,
    seedOverlap_join overlap_size st.current_chunk_segments,
    seedOverlap_len overlap_size st.current_chunk_segments hov,
    fun pre a h => seedOverlap_boundary overlap_size st.current_chunk_segments pre a h,
    fun a post h => seedOverlap_step overlap_size st.current_chunk_segments a post h⟩
  rw [chunkStep, if_pos hclose]

/-- Witness for `claim_C2_overlap_seed` at a concrete state. -/
theorem claim_C2_overlap_seed_witness :
    ((0 : ℤ) ≤ 3) ∧ ((3 : ℤ) < 8) ∧
      (((' ' :: "hello".toList).length : ℤ) +
          ((strip "world".toList).length : ℤ) + 1 > 8 ∧ (' ' :: "hello".toList) ≠ []) ∧
      (seedOverlap 3 [Segment.mk "hello".toList 0 1]).2 <:+
        [Segment.mk "hello".toList 0 1] ∧
      (((seedOverlap 3 [Segment.mk "hello".toList 0 1]).1.length : ℤ)) ≤ 3 :=
  ⟨by decide, by decide, ⟨by decide, by decide⟩,
    (claim_C2_overlap_seed 8 3
        ⟨[], ' ' :: "hello".toList, 0, [Segment.mk "hello".toList 0 1]⟩
        (Segment.mk "world".toList 1 1) (by decide) (by decide)
        ⟨by decide, by decide⟩).2.1,
    (claim_C2_overlap_seed 8 3
        ⟨[], ' ' :: "hello".toList, 0, [Segment.mk "hello".toList 0 1]⟩
        (Segment.mk "world".toList 1 1) (by decide) (by decide)
        ⟨by decide, by decide⟩).2.2.2.1⟩

/-! ### Video-id extraction (C7) -/

theorem orElse_some (a : List Char) (f : Unit → Option (List Char)) :
    (some a).orElse f = some a := rfl

theorem orElse_none (f : Unit → Option (List Char)) :
    (none : Option (List Char)).orElse f = f () := rfl

theorem matchAt_nil : matchAt [] = none := by decide

theorem tryAlt_some {alt l v : List Char} (h : tryAlt alt l = some v) :
    v.length = 11 ∧ v.all idChar = true := by
  rw [tryAlt] at h
  split at h
  · next hc =>
    injection h with hv
    subst hv
    simp only [Bool.and_eq_true, decide_eq_true_eq] at hc
    constructor
    · rw [List.length_take]
      omega
    · exact hc.2
  · exact absurd h (by simp)

theorem matchAt_some {l v : List Char} (h : matchAt l = some v) :
    v.length = 11 ∧ v.all idChar = true := by
  rw [matchAt] at h
  cases h1 : tryAlt "v=".toList l with
  | some w =>
    rw [h1, orElse_some] at h
    injection h with hw
    subst hw
    exact tryAlt_some h1
  | none =>
    rw [h1, orElse_none] at h
    cases h2 : tryAlt "/v/".toList l with
    | some w =>
      rw [h2, orElse_some] at h
      injection h with hw
      subst hw
      exact tryAlt_some h2
    | none =>
      rw [h2, orElse_none] at h
      cases h3 : tryAlt "youtu.be/".toList l with
      | some w =>
        rw [h3, orElse_some] at h
        injection h with hw
        subst hw
        exact tryAlt_some h3
      | none =>
        rw [h3, orElse_none] at h
        exact tryAlt_some h

theorem searchFrom_some : ∀ {url v : List Char}, searchFrom url = some v →
    ∃ i, matchAt (url.drop i) = some v ∧ ∀ j < i, matchAt (url.drop j) = none := by
  intro url
  induction url with
  | nil =>
    intro v h
    rw [searchFrom] at h
    exact absurd h (by simp)
  | cons c rest ih =>
    intro v h
    rw [searchFrom] at h
    cases hm : matchAt (c :: rest) with
    | some w =>
      rw [hm] at h
      have hw : some w = some v := h
      injection hw with hw2
      subst hw2
      exact ⟨0, hm, fun j hj => absurd hj (Nat.not_lt_zero j)⟩
    | none =>
      rw [hm] at h
      have h2 : searchFrom rest = some v := h
      obtain ⟨i, hi, hj⟩ := ih h2
      refine ⟨i + 1, by rw [List.drop_succ_cons]; exact hi, ?_⟩
      intro j hjlt
      cases j with
      | zero => exact hm
      | succ j' =>
        rw [List.drop_succ_cons]
        exact hj j' (Nat.lt_of_succ_lt_succ hjlt)

theorem searchFrom_none : ∀ {url : List Char}, searchFrom url = none →
    ∀ i, matchAt (url.drop i) = none := by
  intro url
  induction url with
  | nil =>
    intro h i
    rw [List.drop_nil]
    exact matchAt_nil
  | cons c rest ih =>
    intro h i
    rw [searchFrom] at h
    cases hm : matchAt (c :: rest) with
    | some w =>
      rw [hm] at h
      exact absurd (h : (some w : Option (List Char)) = none) (by simp)
    | none =>
      have h2 : searchFrom rest = none := by
        rw [hm] at h
        exact h
      cases i with
      | zero => exact hm
      | succ i' =>
        rw [List.drop_succ_cons]
        exact ih h2 i'

/-- C7: `extract_video_id` returns the capture group of the first position
where the pattern matches — 11 characters from `[A-Za-z0-9_-]` following
one of the `v=`, `/v/`, `youtu.be/`, `/embed/` alternatives — and `None`
when no position matches; in particular it extracts `ssYt09bCgUY` from the
standard watch URL and returns `None` on `"not a url"`. -/
theorem claim_C7_extract (url v : List Char) :
    (extract_video_id url = some v →
      v.length = 11 ∧ v.all idChar = true ∧
        ∃ i, matchAt (url.drop i) = some v ∧ ∀ j < i, matchAt (url.drop j) = none) ∧
    (extract_video_id url = none → ∀ i, matchAt (url.drop i) = none) ∧
    extract_video_id "https://www.youtube.com/watch?v=ssYt09bCgUY".toList =
      some "ssYt09bCgUY".toList ∧
    extract_video_id "not a url".toList = none := by
  refine ⟨?_, ?_, by decide, by decide⟩
  · intro h
    obtain ⟨i, hi, hj⟩ := searchFrom_some h
    obtain ⟨h1, h2⟩ := matchAt_some hi
    exact ⟨h1, h2, i, hi, hj⟩
  · intro h
    exact searchFrom_none h

/-- Witness for `claim_C7_extract` at the concrete watch URL. -/
theorem claim_C7_extract_witness :
    "ssYt09bCgUY".toList.length = 11 ∧ "ssYt09bCgUY".toList.all idChar = true ∧
      ∃ i, matchAt ("https://www.youtube.com/watch?v=ssYt09bCgUY".toList.drop i) =
          some "ssYt09bCgUY".toList ∧
        ∀ j < i, matchAt ("https://www.youtube.com/watch?v=ssYt09bCgUY".toList.drop j) =
          none :=
  (claim_C7_extract "https://www.youtube.com/watch?v=ssYt09bCgUY".toList
      "ssYt09bCgUY".toList).1 (by decide)

/-! ### Error classification of the transcript fetch (C8) -/

theorem containsSub_iff (hay needle : List Char) :
    containsSub hay needle = true ↔ needle <:+: hay := by
  induction hay with
  | nil =>
    constructor
    · intro h
      rw [containsSub] at h
      split at h
      · next hp => exact (List.isPrefixOf_iff_prefix.mp hp).isInfix
      · exact absurd h (by simp)
    · intro h
      rw [containsSub]
      split
      · rfl
      · next hp =>
        have h2 : needle = [] := by
          have := h.sublist.length_le
          simpa using List.eq_nil_of_length_eq_zero (Nat.le_zero.mp (by simpa using this))
        rw [h2] at hp
        exact absurd (by decide : ([] : List Char).isPrefixOf [] = true) (by simpa using hp)
  | cons c t ih =>
    constructor
    · intro h
      rw [containsSub] at h
      split at h
      · next hp => exact (List.isPrefixOf_iff_prefix.mp hp).isInfix
      · next hp =>
        have h2 : containsSub t needle = true := h
        exact (ih.mp h2).trans (List.suffix_cons c t).isInfix
    · intro h
      rw [containsSub]
      split
      · rfl
      · next hp =>
        show containsSub t needle = true
        rcases List.infix_cons_iff.mp h with hpre | hinf
        · exact absurd (List.isPrefixOf_iff_prefix.mpr hpre) (by simpa using hp)
        · exact ih.mpr hinf

/-- C8: when the retrieval capability fails with message `e`, the result
is always a returned dict with `success = false` and a non-null `error`
(no fault propagates in the embedding — the function is total on the
error), and the message is classified by case-insensitive substring match
in source order: `"disabled"`, then `"no transcript"`/`"not found"`, then
`"unavailable"`, else the unexpected-error message embedding `str(e)`. -/
theorem claim_C8_classify (url e : List Char)
    (fetch : List Char → Except (List Char) (List Segment)) (vid : List Char)
    (hvid : extract_video_id url = some vid) (hfetch : fetch vid = Except.error e) :
    (get_youtube_transcript url fetch).success = false ∧
    (get_youtube_transcript url fetch).error ≠ none ∧
    ("disabled".toList <:+: lowerStr e →
      (get_youtube_transcript url fetch).error = some msgDisabled) ∧
    (¬ "disabled".toList <:+: lowerStr e →
      ("no transcript".toList <:+: lowerStr e ∨ "not found".toList <:+: lowerStr e) →
      (get_youtube_transcript url fetch).error = some msgNotFound) ∧
    (¬ "disabled".toList <:+: lowerStr e →
      ¬ ("no transcript".toList <:+: lowerStr e ∨ "not found".toList <:+: lowerStr e) →
      "unavailable".toList <:+: lowerStr e →
      (get_youtube_transcript url fetch).error = some msgUnavailable) ∧
    (¬ "disabled".toList <:+: lowerStr e →
      ¬ ("no transcript".toList <:+: lowerStr e ∨ "not found".toList <:+: lowerStr e) →
      ¬ "unavailable".toList <:+: lowerStr e →
      (get_youtube_transcript url fetch).error = some (msgUnexpected ++ e)) := by
  have key : get_youtube_transcript url fetch =
      (if containsSub (lowerStr e) "disabled".toList then
        ⟨false, none, none, some msgDisabled⟩
      else if containsSub (lowerStr e) "no transcript".toList ||
          containsSub (lowerStr e) "not found".toList then
        ⟨false, none, none, some msgNotFound⟩
      else if containsSub (lowerStr e) "unavailable".toList then
        ⟨false, none, none, some msgUnavailable⟩
      else ⟨false, none, none, some (msgUnexpected ++ e)⟩) := by
    rw [get_youtube_transcript, hvid]
    simp only [hfetch]
  refine ⟨?_, ?_, ?_, ?_, ?_, ?_⟩
  · rw [key]
    split_ifs <;> rfl
  · rw [key]
    split_ifs <;> simp
  · intro h1
    rw [key, if_pos ((containsSub_iff _ _).mpr h1)]
  · intro h1 h2
    have hb1 : ¬ containsSub (lowerStr e) "disabled".toList = true :=
      fun hc => h1 ((containsSub_iff _ _).mp hc)
    have hb2 : (containsSub (lowerStr e) "no transcript".toList ||
        containsSub (lowerStr e) "not found".toList) = true := by
      rcases h2 with h2 | h2
      · rw [(containsSub_iff _ _).mpr h2]
        simp
      · rw [(containsSub_iff _ _).mpr h2]
        simp
    rw [key, if_neg hb1, if_pos hb2]
  · intro h1 h2 h3
    have hb1 : ¬ containsSub (lowerStr e) "disabled".toList = true :=
      fun hc => h1 ((containsSub_iff _ _).mp hc)
    have hb2 : ¬ (containsSub (lowerStr e) "no transcript".toList ||
        containsSub (lowerStr e) "not found".toList) = true := by
      intro hc
      rcases Bool.or_eq_true_iff.mp hc with hc | hc
      · exact h2 (Or.inl ((containsSub_iff _ _).mp hc))
      · exact h2 (Or.inr ((containsSub_iff _ _).mp hc))
    rw [key, if_neg hb1, if_neg hb2, if_pos ((containsSub_iff _ _).mpr h3)]
  · intro h1 h2 h3
    have hb1 : ¬ containsSub (lowerStr e) "disabled".toList = true :=
      fun hc => h1 ((containsSub_iff _ _).mp hc)
    have hb2 : ¬ (containsSub (lowerStr e) "no transcript".toList ||
        containsSub (lowerStr e) "not found".toList) = true := by
      intro hc
      rcases Bool.or_eq_true_iff.mp hc with hc | hc
      · exact h2 (Or.inl ((containsSub_iff _ _).mp hc))
      · exact h2 (Or.inr ((containsSub_iff _ _).mp hc))
    have hb3 : ¬ containsSub (lowerStr e) "unavailable".toList = true :=
      fun hc => h3 ((containsSub_iff _ _).mp hc)
    rw [key, if_neg hb1, if_neg hb2, if_neg hb3]

/-- Witness for `claim_C8_classify` on a concrete disabled-captions error. -/
theorem claim_C8_classify_witness :
    (get_youtube_transcript "https://www.youtube.com/watch?v=ssYt09bCgUY".toList
        (fun _ => Except.error "Subtitles are disabled for this video".toList)).success =
      false ∧
    (get_youtube_transcript "https://www.youtube.com/watch?v=ssYt09bCgUY".toList
        (fun _ => Except.error "Subtitles are disabled for this video".toList)).error =
      some msgDisabled :=
  ⟨(claim_C8_classify "https://www.youtube.com/watch?v=ssYt09bCgUY".toList
      "Subtitles are disabled for this video".toList
      (fun _ => Except.error "Subtitles are disabled for this video".toList)
      "ssYt09bCgUY".toList (by decide) rfl).1,
    (claim_C8_classify "https://www.youtube.com/watch?v=ssYt09bCgUY".toList
      "Subtitles are disabled for this video".toList
      (fun _ => Except.error "Subtitles are disabled for this video".toList)
      "ssYt09bCgUY".toList (by decide) rfl).2.2.1 (by decide)⟩

/-! ### Store orchestration (C9) -/

/-- C9: if the fetch fails, `store_transcript_for_rag` returns the fetch
result unchanged, and its output does not depend on the store at all
(hence the store — and the chunker feeding it — are never consulted); on
fetch success with segments `segs`, a store failure yields `success =
false`, a stored count of 0, the original segment count and the generic
storage-failure message, while a store success yields the chunk count of
`chunk_segments segs chunk_size 50` and the original segment count. -/
theorem claim_C9_store (url : List Char)
    (fetch : List Char → Except (List Char) (List Segment))
    (store store' : List Char → List Chunk → List Char → Bool) (chunk_size : ℤ) :
    ((get_youtube_transcript url fetch).success = false →
      store_transcript_for_rag url fetch store chunk_size =
        StoreRagResult.fetchFailed (get_youtube_transcript url fetch) ∧
      store_transcript_for_rag url fetch store chunk_size =
        store_transcript_for_rag url fetch store' chunk_size) ∧
    (∀ segs : List Segment, (get_youtube_transcript url fetch).success = true →
      (get_youtube_transcript url fetch).segments = some segs →
      (store ((extract_video_id url).getD []) (chunk_segments segs chunk_size 50) url =
          false →
        store_transcript_for_rag url fetch store chunk_size =
          StoreRagResult.storeAttempted false ((extract_video_id url).getD []) 0
            segs.length (some msgStoreFailed)) ∧
      (store ((extract_video_id url).getD []) (chunk_segments segs chunk_size 50) url =
          true →
        store_transcript_for_rag url fetch store chunk_size =
          StoreRagResult.storeAttempted true ((extract_video_id url).getD [])
            (chunk_segments segs chunk_size 50).length segs.length none)) := by
  constructor
  · intro h
    constructor
    · simp [store_transcript_for_rag, h]
    · simp [store_transcript_for_rag, h]
  · intro segs hs hsegs
    constructor
    · intro hst
      simp [store_transcript_for_rag, hs, hsegs, hst]
    · intro hst
      simp [store_transcript_for_rag, hs, hsegs, hst]

/-- Witness for `claim_C9_store`: a failing fetch is propagated unchanged,
and a successful fetch plus successful store reports the chunk count. -/
theorem claim_C9_store_witness :
    store_transcript_for_rag "not a url".toList (fun _ => Except.error [])
        (fun _ _ _ => true) 500 =
      StoreRagResult.fetchFailed
        (get_youtube_transcript "not a url".toList (fun _ => Except.error [])) ∧
    store_transcript_for_rag "https://www.youtube.com/watch?v=ssYt09bCgUY".toList
        (fun _ => Except.ok [Segment.mk "hello".toList 0 1]) (fun _ _ _ => true) 500 =
      StoreRagResult.storeAttempted true
        ((extract_video_id "https://www.youtube.com/watch?v=ssYt09bCgUY".toList).getD [])
        (chunk_segments [Segment.mk "hello".toList 0 1] 500 50).length 1 none :=
  ⟨((claim_C9_store "not a url".toList (fun _ => Except.error [])
      (fun _ _ _ => true) (fun _ _ _ => true) 500).1 (by decide)).1,
    ((claim_C9_store "https://www.youtube.com/watch?v=ssYt09bCgUY".toList
      (fun _ => Except.ok [Segment.mk "hello".toList 0 1])
      (fun _ _ _ => true) (fun _ _ _ => true) 500).2
      [Segment.mk "hello".toList 0 1] (by decide) (by decide)).2 rfl⟩

end EMTT
